import Mathlib

/-!
Shallow embedding of the RAG example program (main.go): the in-memory
vector store with top-K cosine-similarity retrieval, and the
word-boundary-preserving text chunker, together with proofs of the
specified properties.

Modelling conventions:

* Go float32 values are modelled exactly: a float is either a finite
  rational or one of the IEEE special values +Inf, -Inf, NaN (the
  inductive type F below).  Rounding and negative zero are not
  modelled; arithmetic on finite values is exact rational arithmetic,
  and the special values propagate following the IEEE rules.
* math.Sqrt takes irrational values on most rationals, so the square
  root on finite values is kept as an abstract parameter sqrtQ of the
  whole development; theorems that need a property of it assume only
  what is true of the real square root (sqrtQ 0 = 0).
* Go slices become lists; an out-of-range slice index (a run-time
  panic, as in cosineSim when the first vector is longer than the
  second) makes the modelled function return none.
* Go strings become lists of characters; len(s) is the UTF-8 byte
  length (goLen below), and strings.Fields splits on runs of
  characters satisfying unicode.IsSpace.
-/

namespace Rag

/-- IEEE-style float32 value: a finite value (kept as an exact
rational), the two infinities, or NaN. -/
inductive F where
  | fin (q : Rat)
  | inf
  | ninf
  | nan
  deriving DecidableEq, Repr

/-- IEEE addition on modelled floats (exact on finite values). -/
def addF : F → F → F
  | F.nan, _ => F.nan
  | _, F.nan => F.nan
  | F.inf, F.ninf => F.nan
  | F.ninf, F.inf => F.nan
  | F.inf, _ => F.inf
  | _, F.inf => F.inf
  | F.ninf, _ => F.ninf
  | _, F.ninf => F.ninf
  | F.fin x, F.fin y => F.fin (x + y)

/-- IEEE multiplication on modelled floats (exact on finite values);
infinity times zero is NaN. -/
def mulF : F → F → F
  | F.nan, _ => F.nan
  | _, F.nan => F.nan
  | F.fin x, F.fin y => F.fin (x * y)
  | F.inf, F.inf => F.inf
  | F.inf, F.ninf => F.ninf
  | F.ninf, F.inf => F.ninf
  | F.ninf, F.ninf => F.inf
  | F.inf, F.fin x => if x = 0 then F.nan else if 0 < x then F.inf else F.ninf
  | F.fin x, F.inf => if x = 0 then F.nan else if 0 < x then F.inf else F.ninf
  | F.ninf, F.fin x => if x = 0 then F.nan else if 0 < x then F.ninf else F.inf
  | F.fin x, F.ninf => if x = 0 then F.nan else if 0 < x then F.ninf else F.inf

/-- IEEE division on modelled floats: a nonzero finite value divided
by zero gives a signed infinity, zero divided by zero gives NaN
(negative zero is not modelled, so the sign of the zero divisor is
always positive). -/
def divF : F → F → F
  | F.nan, _ => F.nan
  | _, F.nan => F.nan
  | F.fin x, F.fin y =>
    if y = 0 then (if x = 0 then F.nan else if 0 < x then F.inf else F.ninf)
    else F.fin (x / y)
  | F.fin _, F.inf => F.fin 0
  | F.fin _, F.ninf => F.fin 0
  | F.inf, F.fin y => if 0 ≤ y then F.inf else F.ninf
  | F.ninf, F.fin y => if 0 ≤ y then F.ninf else F.inf
  | F.inf, F.inf => F.nan
  | F.inf, F.ninf => F.nan
  | F.ninf, F.inf => F.nan
  | F.ninf, F.ninf => F.nan

/-- IEEE strict greater-than on modelled floats: any comparison with
NaN is false.  This is the comparison the Go sort callback
`scoredDocs[i].Score > scoredDocs[j].Score` performs. -/
def gtF : F → F → Bool
  | F.nan, _ => false
  | _, F.nan => false
  | F.fin x, F.fin y => decide (y < x)
  | F.inf, F.inf => false
  | F.inf, _ => true
  | _, F.inf => false
  | F.ninf, _ => false
  | F.fin _, F.ninf => true

/-- A modelled float is finite when it is neither an infinity nor NaN. -/
def finiteF : F → Bool
  | F.fin _ => true
  | _ => false

section VectorStore

variable (sqrtQ : Rat → Rat)

/-- IEEE square root on modelled floats, with the finite case given by
the abstract parameter sqrtQ (negative inputs give NaN). -/
def sqrtF : F → F
  | F.fin x => if x < 0 then F.nan else F.fin (sqrtQ x)
  | F.inf => F.inf
  | F.ninf => F.nan
  | F.nan => F.nan

/-- Accumulating loop of cosineSim: `for i := range a` updating
dot, normA, normB; indexing b out of range (b exhausted while a is
not) is a Go run-time panic, modelled as none. -/
def simLoop : List F → List F → F × F × F → Option (F × F × F)
  | [], _, acc => some acc
  | _ :: _, [], _ => none
  | x :: xs, y :: ys, (d, na, nb) =>
    simLoop xs ys (addF d (mulF x y), addF na (mulF x x), addF nb (mulF y y))

/-- cosineSim from main.go: dot / (sqrt(normA) * sqrt(normB)) with the
three accumulators computed by a single loop over the indices of a. -/
def cosineSim (a b : List F) : Option F :=
  (simLoop a b (F.fin 0, F.fin 0, F.fin 0)).map
    (fun acc => divF acc.1 (mulF (sqrtF sqrtQ acc.2.1) (sqrtF sqrtQ acc.2.2)))

/-- A document of main.go: a text fragment and its embedding. -/
structure document where
  text : List Char
  embedding : List F
  deriving DecidableEq, Repr

/-- The vector store of main.go: the ordered list of added documents. -/
structure vectorStore where
  documents : List document
  deriving DecidableEq, Repr

/-- newVectorStore: an empty store. -/
def newVectorStore : vectorStore := ⟨[]⟩

/-- add appends a document to the store. -/
def add (vs : vectorStore) (doc : document) : vectorStore :=
  ⟨vs.documents ++ [doc]⟩

/-- The scoring pass of retrieveTopK: score every stored document
against the query, in storage order, propagating a panic from
cosineSim. -/
def scoreDocs (queryVec : List F) : List document → Option (List (document × F))
  | [] => some []
  | d :: ds =>
    match cosineSim sqrtQ queryVec d.embedding, scoreDocs queryVec ds with
    | some s, some rest => some ((d, s) :: rest)
    | _, _ => none

/-- Insertion step of the model sort: place p before the first entry
it strictly beats under gtF (descending order). -/
def insertScored (p : document × F) : List (document × F) → List (document × F)
  | [] => [p]
  | q :: qs => if gtF p.2 q.2 then p :: q :: qs else q :: insertScored p qs

/-- Model of sort.Slice with the descending-score comparison: a
deterministic comparison-respecting sort (Go's sort is unstable, and
the spec leaves the order of ties unspecified). -/
def sortScored : List (document × F) → List (document × F)
  | [] => []
  | p :: ps => insertScored p (sortScored ps)

/-- retrieveTopK from main.go: score all stored documents, sort by
descending score, return the first k (all of them when k exceeds the
count, none when k ≤ 0).  A panic while scoring is propagated as
none. -/
def retrieveTopK (vs : vectorStore) (queryVec : List F) (k : Int) :
    Option (List document) :=
  (scoreDocs sqrtQ queryVec vs.documents).map
    (fun sc => ((sortScored sc).take k.toNat).map Prod.fst)

end VectorStore

/-- unicode.IsSpace from the Go standard library: the Latin-1
whitespace characters plus the White_Space property code points. -/
def isSpace (c : Char) : Bool :=
  c.toNat = 9 || c.toNat = 10 || c.toNat = 11 || c.toNat = 12 ||
  c.toNat = 13 || c.toNat = 32 || c.toNat = 133 || c.toNat = 160 ||
  c.toNat = 5760 || (8192 ≤ c.toNat && c.toNat ≤ 8202) ||
  c.toNat = 8232 || c.toNat = 8233 || c.toNat = 8239 ||
  c.toNat = 8287 || c.toNat = 12288

/-- UTF-8 byte width of a character, as counted by Go's len on a
string. -/
def charSize (c : Char) : Nat :=
  if c.toNat < 128 then 1
  else if c.toNat < 2048 then 2
  else if c.toNat < 65536 then 3
  else 4

/-- Go len of a string: total UTF-8 byte length. -/
def goLen (s : List Char) : Nat :=
  (s.map charSize).sum

/-- Go len of a string as a Go int (for comparison with maxLen). -/
def goLenI (s : List Char) : Int :=
  (goLen s : Int)

/-- The space character used by strings.Join(-, " "). -/
def spaceChar : Char := ' '

/-- Worker for strings.Fields: acc holds the current word reversed. -/
def fieldsAux : List Char → List Char → List (List Char)
  | [], acc => if acc.isEmpty then [] else [acc.reverse]
  | c :: cs, acc =>
    if isSpace c then
      if acc.isEmpty then fieldsAux cs [] else acc.reverse :: fieldsAux cs []
    else fieldsAux cs (c :: acc)

/-- strings.Fields from the Go standard library: the maximal runs of
non-whitespace characters, in order. -/
def fields (s : List Char) : List (List Char) :=
  fieldsAux s []

/-- strings.Join(l, " "): the elements of l separated by single
spaces. -/
def joinSp : List (List Char) → List Char
  | [] => []
  | [s] => s
  | s :: s2 :: rest => s ++ spaceChar :: joinSp (s2 :: rest)

/-- The word loop of chunkText: walk the words, accumulating buf;
when joining the next word would exceed maxLen and buf is non-empty,
emit buf as a chunk and restart from the current word; finally emit
the non-empty buf. -/
def chunkCore (maxLen : Int) : List (List Char) → List (List Char) →
    List (List Char) → List (List Char)
  | [], buf, chunks => if buf.isEmpty then chunks else chunks ++ [joinSp buf]
  | w :: ws, buf, chunks =>
    if goLenI (joinSp (buf ++ [w])) > maxLen ∧ ¬ buf.isEmpty then
      chunkCore maxLen ws [w] (chunks ++ [joinSp buf])
    else
      chunkCore maxLen ws (buf ++ [w]) chunks

/-- chunkText from main.go: for non-positive maxLen return the words
themselves; otherwise greedily pack words into chunks of joined
length at most maxLen, never splitting a word. -/
def chunkText (text : List Char) (maxLen : Int) : List (List Char) :=
  if maxLen ≤ 0 then fields text
  else
    let words := fields text
    if words.isEmpty then [] else chunkCore maxLen words [] []

/-! Concrete strings used by the example-based claims and the
witnesses, written as character lists and assembled with joinSp. -/

def wHello : List Char := ['h', 'e', 'l', 'l', 'o']

def wWorld : List Char := ['w', 'o', 'r', 'l', 'd']

def wThis : List Char := ['t', 'h', 'i', 's']

def wIs : List Char := ['i', 's']

def wA : List Char := ['a']

def wTest : List Char := ['t', 'e', 's', 't']

def wOf : List Char := ['o', 'f']

def wChunking : List Char := ['c', 'h', 'u', 'n', 'k', 'i', 'n', 'g']

def wFunctionality : List Char :=
  ['f', 'u', 'n', 'c', 't', 'i', 'o', 'n', 'a', 'l', 'i', 't', 'y']

/-- The text of the worked chunking example in the spec. -/
def textChunkDemo : List Char :=
  joinSp [wThis, wIs, wA, wTest, wOf, wChunking, wFunctionality]

/-- The text of the degenerate-chunking example in the spec. -/
def textHelloWorld : List Char := joinSp [wHello, wWorld]

/-! Helper lemmas about joinSp and the chunking loop. -/

lemma joinSp_cons (x : List Char) (r : List (List Char)) (hr : r ≠ []) :
    joinSp (x :: r) = x ++ spaceChar :: joinSp r := by
  cases r with
  | nil => exact absurd rfl hr
  | cons y ys => rfl

lemma joinSp_append (g1 g2 : List (List Char)) (h1 : g1 ≠ []) (h2 : g2 ≠ []) :
    joinSp (g1 ++ g2) = joinSp g1 ++ spaceChar :: joinSp g2 := by
  induction g1 with
  | nil => exact absurd rfl h1
  | cons x xs ih =>
    cases xs with
    | nil =>
      rw [List.singleton_append, joinSp_cons x g2 h2]
      rfl
    | cons y ys =>
      rw [List.cons_append, joinSp_cons x ((y :: ys) ++ g2) (by simp),
        ih (by simp), joinSp_cons x (y :: ys) (by simp)]
      simp

lemma joinSp_concat_pair (C : List (List Char)) (x y : List Char) :
    joinSp (C ++ [x, y]) = joinSp (C ++ [x ++ spaceChar :: y]) := by
  cases C with
  | nil => rfl
  | cons c cs =>
    rw [joinSp_append (c :: cs) [x, y] (by simp) (by simp),
      joinSp_append (c :: cs) [x ++ spaceChar :: y] (by simp) (by simp)]
    rfl

lemma chunkCore_join (m : Int) :
    ∀ ws buf chunks, buf ≠ [] →
      joinSp (chunkCore m ws buf chunks) =
        joinSp (chunks ++ [joinSp (buf ++ ws)]) := by
  intro ws
  induction ws with
  | nil =>
    intro buf chunks hb
    simp [chunkCore, List.isEmpty_iff, hb]
  | cons w ws ih =>
    intro buf chunks hb
    rw [chunkCore]
    by_cases hc : goLenI (joinSp (buf ++ [w])) > m ∧ ¬ buf.isEmpty
    · rw [if_pos hc, ih [w] (chunks ++ [joinSp buf]) (by simp)]
      simp only [List.singleton_append, List.append_assoc]
      rw [joinSp_concat_pair chunks (joinSp buf) (joinSp (w :: ws)),
        joinSp_append buf (w :: ws) hb (by simp)]
    · rw [if_neg hc, ih (buf ++ [w]) chunks (by simp), List.append_assoc,
        List.singleton_append]

lemma chunkCore_len (m : Int) (W : List (List Char)) :
    ∀ ws buf chunks, (∀ w ∈ ws, w ∈ W) →
      (∀ c ∈ chunks, goLenI c ≤ m ∨ c ∈ W) →
      (buf = [] ∨ goLenI (joinSp buf) ≤ m ∨ ∃ w ∈ W, buf = [w]) →
      ∀ c ∈ chunkCore m ws buf chunks, goLenI c ≤ m ∨ c ∈ W := by
  intro ws
  induction ws with
  | nil =>
    intro buf chunks _ hch hbuf c hc
    rw [chunkCore] at hc
    by_cases hb : buf.isEmpty
    · rw [if_pos hb] at hc
      exact hch c hc
    · rw [if_neg hb] at hc
      rcases List.mem_append.1 hc with h | h
      · exact hch c h
      · rcases hbuf with h0 | hle | ⟨w, hw, hbw⟩
        · exact absurd (by simp [h0]) hb
        · rw [List.mem_singleton.1 h]
          exact Or.inl hle
        · rw [List.mem_singleton.1 h, hbw]
          exact Or.inr hw
  | cons w ws ih =>
    intro buf chunks hws hch hbuf c hc
    rw [chunkCore] at hc
    by_cases hcond : goLenI (joinSp (buf ++ [w])) > m ∧ ¬ buf.isEmpty
    · rw [if_pos hcond] at hc
      refine ih [w] (chunks ++ [joinSp buf]) (fun v hv => hws v (by simp [hv]))
        ?_ (Or.inr (Or.inr ⟨w, hws w (by simp), rfl⟩)) c hc
      intro d hd
      rcases List.mem_append.1 hd with h | h
      · exact hch d h
      · rcases hbuf with h0 | hle | ⟨v, hv, hbv⟩
        · exact absurd (by simp [h0]) hcond.2
        · rw [List.mem_singleton.1 h]
          exact Or.inl hle
        · rw [List.mem_singleton.1 h, hbv]
          exact Or.inr hv
    · rw [if_neg hcond] at hc
      refine ih (buf ++ [w]) chunks (fun v hv => hws v (by simp [hv])) hch
        ?_ c hc
      rcases Decidable.not_and_iff_or_not.1 hcond with h | h
      · refine Or.inr (Or.inl ?_)
        omega
      · have h0 : buf = [] := by
          rcases buf with _ | _
          · rfl
          · simp at h
        exact Or.inr (Or.inr ⟨w, hws w (by simp), by rw [h0, List.nil_append]⟩)

/-- C3: for every text and positive maxLen, joining the chunks with
single spaces yields exactly the whitespace-normalized form of the
text (the words joined with single spaces): no word is split,
duplicated, dropped or reordered. -/
theorem chunk_roundtrip (text : List Char) (maxLen : Int) (hm : 0 < maxLen) :
    joinSp (chunkText text maxLen) = joinSp (fields text) := by
  rw [chunkText, if_neg (by omega)]
  cases hw : fields text with
  | nil => simp
  | cons w ws =>
    simp only [List.isEmpty_cons, if_false, Bool.false_eq_true]
    rw [chunkCore, if_neg (by simp), List.nil_append,
      chunkCore_join maxLen ws [w] [] (by simp), List.nil_append]
    rfl

/-- C3 witness: the round trip at the worked example text with
maxLen 10. -/
theorem chunk_roundtrip_witness :
    (0 : Int) < 10 ∧
      joinSp (chunkText textChunkDemo 10) = joinSp (fields textChunkDemo) :=
  ⟨by decide, chunk_roundtrip textChunkDemo 10 (by decide)⟩

/-- C4: for positive maxLen, every chunk either has length at most
maxLen or is a single word of the text (whose own length may exceed
maxLen). -/
theorem chunk_maxLen (text : List Char) (maxLen : Int) (hm : 0 < maxLen) :
    ∀ c ∈ chunkText text maxLen, goLenI c ≤ maxLen ∨ c ∈ fields text := by
  intro c hc
  rw [chunkText, if_neg (by omega)] at hc
  by_cases hw : (fields text).isEmpty
  · simp only [hw, if_true] at hc
    simp at hc
  · simp only [hw, if_false, Bool.false_eq_true] at hc
    exact chunkCore_len maxLen (fields text) (fields text) [] []
      (fun _ h => h) (by simp) (Or.inl rfl) c hc

/-- C4 witness: with maxLen 3, the word hello becomes its own
oversized chunk while the other chunk fits. -/
theorem chunk_maxLen_witness :
    (0 : Int) < 3 ∧
      ∀ c ∈ chunkText textHelloWorld 3, goLenI c ≤ 3 ∨ c ∈ fields textHelloWorld :=
  ⟨by decide, chunk_maxLen textHelloWorld 3 (by decide)⟩

/-- C7: for non-positive maxLen, chunkText returns exactly the list of
words of the text, one word per fragment, in original order. -/
theorem chunk_nonpositive (text : List Char) (maxLen : Int) (hm : maxLen ≤ 0) :
    chunkText text maxLen = fields text := by
  rw [chunkText, if_pos hm]

/-- C7 witness: the degenerate-chunking example, maxLen 0 on
hello world. -/
theorem chunk_nonpositive_witness :
    (0 : Int) ≤ 0 ∧ chunkText textHelloWorld 0 = [wHello, wWorld] :=
  ⟨le_refl 0, (chunk_nonpositive textHelloWorld 0 (le_refl 0)).trans (by decide)⟩

/-- C8: the worked chunking example: maxLen 10 on the demo text gives
exactly the four expected chunks. -/
theorem chunkText_example :
    chunkText textChunkDemo 10 =
      [joinSp [wThis, wIs, wA], joinSp [wTest, wOf], wChunking, wFunctionality] := by
  decide

/-! Helper definitions and lemmas for the vector-store claims. -/

/-- A concrete square-root parameter used only to instantiate the
closed witnesses and counterexamples; the facts stated there do not
depend on the values of the square root. -/
def sqZero : Rat → Rat := fun _ => 0

/-- A concrete document used by witnesses. -/
def docA : document := ⟨['a'], [F.fin 1, F.fin 0]⟩

/-- A second concrete document used by witnesses. -/
def docB : document := ⟨['b'], [F.fin 0, F.fin 1]⟩

lemma simLoop_eq_none (a : List F) :
    ∀ (b : List F) (acc : F × F × F),
      (simLoop a b acc = none ↔ b.length < a.length) := by
  induction a with
  | nil => intro b acc; simp [simLoop]
  | cons x xs ih =>
    intro b acc
    cases b with
    | nil => simp [simLoop]
    | cons y ys =>
      rcases acc with ⟨d, na, nb⟩
      rw [simLoop]
      simp only [List.length_cons]
      rw [ih ys]
      omega

lemma simLoop_take (a : List F) :
    ∀ (b : List F) (acc : F × F × F),
      simLoop a b acc = simLoop a (b.take a.length) acc := by
  induction a with
  | nil => intro b acc; rfl
  | cons x xs ih =>
    intro b acc
    cases b with
    | nil => rfl
    | cons y ys =>
      rcases acc with ⟨d, na, nb⟩
      rw [List.length_cons, List.take_succ_cons, simLoop, simLoop]
      exact ih ys _

lemma simLoop_isSome (a : List F) :
    ∀ (b : List F) (acc : F × F × F), a.length ≤ b.length →
      ∃ r, simLoop a b acc = some r := by
  induction a with
  | nil => intro b acc _; exact ⟨acc, rfl⟩
  | cons x xs ih =>
    intro b acc hlen
    cases b with
    | nil => simp at hlen
    | cons y ys =>
      rcases acc with ⟨d, na, nb⟩
      rw [simLoop]
      exact ih ys _ (by simpa using hlen)

lemma cosineSim_eq_none (sq : Rat → Rat) (a b : List F) :
    cosineSim sq a b = none ↔ b.length < a.length := by
  rw [cosineSim, Option.map_eq_none']
  exact simLoop_eq_none a b _

lemma cosineSim_isSome (sq : Rat → Rat) (a b : List F)
    (h : a.length ≤ b.length) : ∃ v, cosineSim sq a b = some v := by
  obtain ⟨r, hr⟩ := simLoop_isSome a b (F.fin 0, F.fin 0, F.fin 0) h
  exact ⟨_, by rw [cosineSim, hr]; rfl⟩

lemma mulF_comm (x y : F) : mulF x y = mulF y x := by
  cases x <;> cases y <;> simp [mulF, mul_comm]

lemma mulF_zero_left (y : F) :
    mulF (F.fin 0) y = F.fin 0 ∨ mulF (F.fin 0) y = F.nan := by
  cases y <;> simp [mulF]

lemma mulF_zero_right (y : F) :
    mulF y (F.fin 0) = F.fin 0 ∨ mulF y (F.fin 0) = F.nan := by
  rw [mulF_comm]
  exact mulF_zero_left y

lemma addF_zn (d m : F) (hd : d = F.fin 0 ∨ d = F.nan)
    (hm : m = F.fin 0 ∨ m = F.nan) :
    addF d m = F.fin 0 ∨ addF d m = F.nan := by
  rcases hd with rfl | rfl <;> rcases hm with rfl | rfl <;> simp [addF]

lemma divF_zn (d den : F) (hd : d = F.fin 0 ∨ d = F.nan)
    (hden : den = F.fin 0 ∨ den = F.nan) : divF d den = F.nan := by
  rcases hd with rfl | rfl <;> rcases hden with rfl | rfl <;> simp [divF]

lemma sqrtF_zero (sq : Rat → Rat) (hsq : sq 0 = 0) :
    sqrtF sq (F.fin 0) = F.fin 0 := by
  simp [sqrtF, hsq]

lemma simLoop_zero_left (a : List F) :
    ∀ (b : List F) (d nb : F), (∀ x ∈ a, x = F.fin 0) →
      a.length ≤ b.length → (d = F.fin 0 ∨ d = F.nan) →
      ∃ d' nb', simLoop a b (d, F.fin 0, nb) = some (d', F.fin 0, nb') ∧
        (d' = F.fin 0 ∨ d' = F.nan) := by
  induction a with
  | nil => intro b d nb _ _ hd; exact ⟨d, nb, rfl, hd⟩
  | cons x xs ih =>
    intro b d nb hz hlen hd
    cases b with
    | nil => simp at hlen
    | cons y ys =>
      have hx : x = F.fin 0 := hz x (by simp)
      subst hx
      rw [simLoop]
      have hna : addF (F.fin 0) (mulF (F.fin 0) (F.fin 0)) = F.fin 0 := by simp [addF, mulF]
      rw [hna]
      exact ih ys _ _ (fun v hv => hz v (by simp [hv])) (by simpa using hlen)
        (addF_zn _ _ hd (mulF_zero_left y))

lemma simLoop_zero_right (a : List F) :
    ∀ (b : List F) (d na : F), (∀ x ∈ b, x = F.fin 0) →
      a.length ≤ b.length → (d = F.fin 0 ∨ d = F.nan) →
      ∃ d' na', simLoop a b (d, na, F.fin 0) = some (d', na', F.fin 0) ∧
        (d' = F.fin 0 ∨ d' = F.nan) := by
  induction a with
  | nil => intro b d na _ _ hd; exact ⟨d, na, rfl, hd⟩
  | cons x xs ih =>
    intro b d na hz hlen hd
    cases b with
    | nil => simp at hlen
    | cons y ys =>
      have hy : y = F.fin 0 := hz y (by simp)
      subst hy
      rw [simLoop]
      have hnb : addF (F.fin 0) (mulF (F.fin 0) (F.fin 0)) = F.fin 0 := by simp [addF, mulF]
      rw [hnb]
      exact ih ys _ _ (fun v hv => hz v (by simp [hv])) (by simpa using hlen)
        (addF_zn _ _ hd (mulF_zero_right x))

lemma simLoop_swap (a : List F) :
    ∀ (b : List F) (d na nb : F), a.length = b.length →
      simLoop b a (d, nb, na) =
        (simLoop a b (d, na, nb)).map (fun r => (r.1, r.2.2, r.2.1)) := by
  induction a with
  | nil =>
    intro b d na nb h
    cases b with
    | nil => rfl
    | cons y ys => simp at h
  | cons x xs ih =>
    intro b d na nb h
    cases b with
    | nil => simp at h
    | cons y ys =>
      rw [simLoop, simLoop, mulF_comm y x, ih ys _ _ _ (by simpa using h)]

lemma scoreDocs_spec (sq : Rat → Rat) (q : List F) :
    ∀ docs : List document, (∀ d ∈ docs, q.length ≤ d.embedding.length) →
      ∃ l, scoreDocs sq q docs = some l ∧ l.map Prod.fst = docs ∧
        ∀ p ∈ l, cosineSim sq q p.1.embedding = some p.2 := by
  intro docs
  induction docs with
  | nil => intro _; exact ⟨[], rfl, rfl, by simp⟩
  | cons d ds ih =>
    intro h
    obtain ⟨v, hv⟩ := cosineSim_isSome sq q d.embedding (h d (by simp))
    obtain ⟨l, hl, hmap, hmem⟩ := ih (fun x hx => h x (by simp [hx]))
    refine ⟨(d, v) :: l, ?_, by simp [hmap], ?_⟩
    · rw [scoreDocs, hv, hl]
    · intro p hp
      rcases List.mem_cons.1 hp with rfl | hp
      · exact hv
      · exact hmem p hp

lemma insertScored_perm (p : document × F) (l : List (document × F)) :
    (insertScored p l).Perm (p :: l) := by
  induction l with
  | nil => exact List.Perm.refl _
  | cons q qs ih =>
    rw [insertScored]
    by_cases h : gtF p.2 q.2
    · rw [if_pos h]
    · rw [if_neg h]
      exact (ih.cons q).trans (List.Perm.swap p q qs)

lemma sortScored_perm (l : List (document × F)) : (sortScored l).Perm l := by
  induction l with
  | nil => exact List.Perm.refl _
  | cons p ps ih => exact (insertScored_perm p (sortScored ps)).trans (ih.cons p)

lemma gtF_asymm (x y : F) (h : gtF x y = true) : gtF y x = false := by
  cases x <;> cases y <;> simp_all [gtF]
  exact le_of_lt h

lemma insertScored_headOk (p : document × F) (l : List (document × F)) :
    (insertScored p l).head? = some p ∨ (insertScored p l).head? = l.head? := by
  cases l with
  | nil => exact Or.inl rfl
  | cons q qs =>
    rw [insertScored]
    by_cases h : gtF p.2 q.2
    · rw [if_pos h]
      exact Or.inl rfl
    · rw [if_neg h]
      exact Or.inr rfl

lemma insertScored_chain (p : document × F) (l : List (document × F))
    (hl : List.Chain' (fun a b => gtF b.2 a.2 = false) l) :
    List.Chain' (fun a b => gtF b.2 a.2 = false) (insertScored p l) := by
  induction l with
  | nil => simp [insertScored]
  | cons q qs ih =>
    rw [insertScored]
    by_cases h : gtF p.2 q.2
    · rw [if_pos h]
      exact List.Chain'.cons (gtF_asymm _ _ h) hl
    · rw [if_neg h]
      refine List.chain'_cons'.2 ⟨?_, ih hl.tail⟩
      intro y hy
      rcases insertScored_headOk p qs with hh | hh
      · rw [hh, Option.mem_some_iff] at hy
        rw [← hy]
        exact Bool.eq_false_iff.2 (fun hc => h hc)
      · rw [hh] at hy
        exact (List.chain'_cons'.1 hl).1 y hy

lemma sortScored_chain (l : List (document × F)) :
    List.Chain' (fun a b => gtF b.2 a.2 = false) (sortScored l) := by
  induction l with
  | nil => simp [sortScored]
  | cons p ps ih => exact insertScored_chain p _ ih

lemma chain'_take {α : Type} (R : α → α → Prop) :
    ∀ (n : Nat) (l : List α), List.Chain' R l → List.Chain' R (l.take n) := by
  intro n
  induction n with
  | zero => intro l _; simp
  | succ m ih =>
    intro l hl
    cases l with
    | nil => simp
    | cons x xs =>
      rw [List.take_succ_cons]
      refine List.chain'_cons'.2 ⟨?_, ih xs hl.tail⟩
      intro y hy
      refine (List.chain'_cons'.1 hl).1 y ?_
      cases m with
      | zero => simp at hy
      | succ m2 =>
        cases xs with
        | nil => simp at hy
        | cons z zs => simpa using hy

lemma chain_map_fst (sq : Rat → Rat) (q : List F) :
    ∀ l : List (document × F),
      (∀ p ∈ l, cosineSim sq q p.1.embedding = some p.2) →
      List.Chain' (fun a b => gtF b.2 a.2 = false) l →
      List.Chain' (fun d1 d2 => ∀ s1 s2,
        cosineSim sq q d1.embedding = some s1 →
        cosineSim sq q d2.embedding = some s2 → gtF s2 s1 = false)
        (l.map Prod.fst) := by
  intro l
  induction l with
  | nil => intro _ _; simp
  | cons p ps ih =>
    intro hmem hch
    cases ps with
    | nil => simp
    | cons r rs =>
      simp only [List.map_cons]
      refine List.Chain'.cons ?_ ?_
      · intro s1 s2 h1 h2
        rw [hmem p (by simp)] at h1
        rw [hmem r (by simp)] at h2
        cases Option.some.inj h1
        cases Option.some.inj h2
        exact (List.chain'_cons.1 hch).1
      · have := ih (fun x hx => hmem x (by simp [hx])) hch.tail
        simpa using this

/-! The ten claims. -/

/-- C1 amended: cosineSim pairs elements over the indices of its first
argument a, not up to the min of the lengths: when b is at least as
long as a it does not fail and silently truncates b to length of a
(which is then the min), but when a is longer than b it fails with an
index-out-of-range panic (modelled as none) instead of truncating. -/
theorem cosineSim_mismatch (sq : Rat → Rat) (a b : List F) :
    (cosineSim sq a b = none ↔ b.length < a.length) ∧
      cosineSim sq a b = cosineSim sq a (b.take a.length) := by
  refine ⟨cosineSim_eq_none sq a b, ?_⟩
  rw [cosineSim, cosineSim, ← simLoop_take]

/-- C1 counterexample to the claim as stated: on the mismatched pair
a = [1], b = [] (lengths 1 and 0), cosineSim fails (index out of
range, modelled none) instead of computing a dot product truncated to
min(1, 0) = 0 elements. -/
theorem cosineSim_mismatch_cex : cosineSim sqZero [F.fin 1] [] = none := by
  rfl

/-- C2 amended: provided every stored embedding is at least as long as
the query (otherwise the scoring pass panics, see the counterexample),
retrieveTopK with k ≥ 1 returns exactly the initial min(k, storedCount)
entries of a reordering of all stored documents sorted by descending
cosine similarity to the query (adjacent scores non-increasing); when
k exceeds the stored count the result is that whole sorted
reordering. -/
theorem retrieveTopK_spec (sq : Rat → Rat) (vs : vectorStore) (q : List F)
    (k : Int) (hk : 1 ≤ k)
    (hdim : ∀ d ∈ vs.documents, q.length ≤ d.embedding.length) :
    ∃ sorted : List document, sorted.Perm vs.documents ∧
      List.Chain' (fun d1 d2 => ∀ s1 s2,
        cosineSim sq q d1.embedding = some s1 →
        cosineSim sq q d2.embedding = some s2 → gtF s2 s1 = false) sorted ∧
      retrieveTopK sq vs q k = some (sorted.take k.toNat) ∧
      (sorted.take k.toNat).length = min k.toNat vs.documents.length ∧
      (vs.documents.length ≤ k.toNat → sorted.take k.toNat = sorted) := by
  obtain ⟨l, hl, hmap, hmem⟩ := scoreDocs_spec sq q vs.documents hdim
  have hlen : l.length = vs.documents.length := by
    rw [← hmap, List.length_map]
  have hslen : ((sortScored l).map Prod.fst).length = vs.documents.length := by
    rw [List.length_map, (sortScored_perm l).length_eq, hlen]
  refine ⟨(sortScored l).map Prod.fst, ?_, ?_, ?_, ?_, ?_⟩
  · have := (sortScored_perm l).map Prod.fst
    rwa [hmap] at this
  · refine chain_map_fst sq q (sortScored l) ?_ (sortScored_chain l)
    intro p hp
    exact hmem p ((sortScored_perm l).mem_iff.1 hp)
  · rw [retrieveTopK, hl]
    simp [List.map_take]
  · rw [List.length_take, hslen]
  · intro hler
    apply List.take_of_length_le
    rw [hslen]
    exact hler

/-- C2 counterexample to the claim as stated: a store holding one
document whose embedding is shorter than the query; with k = 1 the
claim demands min(1, 1) = 1 returned entries sorted by similarity,
but the scoring pass panics and retrieveTopK returns nothing. -/
theorem retrieveTopK_spec_cex :
    retrieveTopK sqZero ⟨[⟨[], []⟩]⟩ [F.fin 1] 1 = none := by
  rfl

/-- C2 witness: the amended theorem applied to a concrete two-document
store with k = 1. -/
theorem retrieveTopK_spec_witness :
    (1 ≤ (1 : Int)) ∧
      (∀ d ∈ (vectorStore.mk [docA, docB]).documents,
        [F.fin 1, F.fin 0].length ≤ d.embedding.length) ∧
      ∃ sorted : List document, sorted.Perm (vectorStore.mk [docA, docB]).documents ∧
        List.Chain' (fun d1 d2 => ∀ s1 s2,
          cosineSim sqZero [F.fin 1, F.fin 0] d1.embedding = some s1 →
          cosineSim sqZero [F.fin 1, F.fin 0] d2.embedding = some s2 →
          gtF s2 s1 = false) sorted ∧
        retrieveTopK sqZero (vectorStore.mk [docA, docB]) [F.fin 1, F.fin 0] 1 =
          some (sorted.take (1 : Int).toNat) ∧
        (sorted.take (1 : Int).toNat).length =
          min (1 : Int).toNat (vectorStore.mk [docA, docB]).documents.length ∧
        ((vectorStore.mk [docA, docB]).documents.length ≤ (1 : Int).toNat →
          sorted.take (1 : Int).toNat = sorted) :=
  ⟨by decide, by decide,
    retrieveTopK_spec sqZero ⟨[docA, docB]⟩ [F.fin 1, F.fin 0] 1 (by decide)
      (by decide)⟩

/-- C5 amended: retrieveTopK returns the empty sequence when k ≤ 0
provided every stored embedding is at least as long as the query (the
scoring pass runs before the k cutoff and panics on a longer query,
see the counterexample); on the empty store it returns the empty
sequence unconditionally, for every k and query, and neither case
signals an error. -/
theorem retrieveTopK_empty (sq : Rat → Rat) (vs : vectorStore) (q : List F)
    (k : Int) :
    ((k ≤ 0 ∧ ∀ d ∈ vs.documents, q.length ≤ d.embedding.length) →
      retrieveTopK sq vs q k = some []) ∧
    (vs.documents = [] → retrieveTopK sq vs q k = some []) := by
  constructor
  · rintro ⟨hk, hdim⟩
    obtain ⟨l, hl, -, -⟩ := scoreDocs_spec sq q vs.documents hdim
    rw [retrieveTopK, hl]
    simp [Int.toNat_of_nonpos hk]
  · intro h
    rw [retrieveTopK, h]
    simp [scoreDocs, sortScored]

/-- C5 counterexample to the claim as stated: with k = 0 the claim
demands an empty result for every store and query, but with a stored
embedding shorter than the query the scoring pass panics before the
k cutoff is ever consulted, and retrieveTopK returns nothing. -/
theorem retrieveTopK_empty_cex :
    retrieveTopK sqZero ⟨[⟨['x'], []⟩]⟩ [F.fin 1] 0 = none := by
  rfl

/-- C5 witness: the amended theorem at a concrete store with k = 0,
and at the empty store with k = 7. -/
theorem retrieveTopK_empty_witness :
    retrieveTopK sqZero ⟨[docA]⟩ [F.fin 1, F.fin 0] 0 = some [] ∧
      retrieveTopK sqZero ⟨[]⟩ [F.fin 1] 7 = some [] :=
  ⟨(retrieveTopK_empty sqZero ⟨[docA]⟩ [F.fin 1, F.fin 0] 0).1
      ⟨by decide, by decide⟩,
    (retrieveTopK_empty sqZero ⟨[]⟩ [F.fin 1] 7).2 rfl⟩

/-- C6: add appends the new document, growing the stored sequence by
exactly one and leaving the previously stored documents (the prefix
of the new sequence) unchanged in content and order; retrieveTopK is
a pure function of the stored documents, the query embedding and k,
and does not change the store. -/
theorem add_retrieve_preserve (sq : Rat → Rat) (vs : vectorStore)
    (d : document) :
    (add vs d).documents = vs.documents ++ [d] ∧
      (add vs d).documents.length = vs.documents.length + 1 ∧
      (add vs d).documents.take vs.documents.length = vs.documents ∧
      ∀ q k, retrieveTopK sq vs q k = retrieveTopK sq ⟨vs.documents⟩ q k := by
  refine ⟨rfl, by simp [add], ?_, fun q k => rfl⟩
  simp [add, List.take_left]

/-- C9 amended: in the non-panicking case (a no longer than b), when
either a or b is a zero vector (all components zero; a may be empty),
cosineSim returns NaN, a non-finite value produced by the unguarded
0/0 division, for every square root function with sqrt 0 = 0 (true of
the real square root); when a is longer than b the function instead
panics (see the counterexample and C1). -/
theorem cosineSim_zero_norm (sq : Rat → Rat) (a b : List F)
    (hsq : sq 0 = 0) (hlen : a.length ≤ b.length)
    (hz : (∀ x ∈ a, x = F.fin 0) ∨ (∀ x ∈ b, x = F.fin 0)) :
    ∃ r, cosineSim sq a b = some r ∧ finiteF r = false := by
  rcases hz with hza | hzb
  · obtain ⟨d', nb', hloop, hd'⟩ :=
      simLoop_zero_left a b (F.fin 0) (F.fin 0) hza hlen (Or.inl rfl)
    refine ⟨F.nan, ?_, rfl⟩
    rw [cosineSim, hloop, Option.map_some']
    exact congrArg some
      (by rw [sqrtF_zero sq hsq]; exact divF_zn _ _ hd' (mulF_zero_left _))
  · obtain ⟨d', na', hloop, hd'⟩ :=
      simLoop_zero_right a b (F.fin 0) (F.fin 0) hzb hlen (Or.inl rfl)
    refine ⟨F.nan, ?_, rfl⟩
    rw [cosineSim, hloop, Option.map_some']
    exact congrArg some
      (by rw [sqrtF_zero sq hsq]; exact divF_zn _ _ hd' (mulF_zero_right _))

/-- C9 counterexample to the claim as stated: b = [0] is a zero
vector (zero norm), but with the longer a = [0, 1] cosineSim panics
(none) rather than returning a non-finite value. -/
theorem cosineSim_zero_norm_cex :
    cosineSim sqZero [F.fin 0, F.fin 1] [F.fin 0] = none := by
  rfl

/-- C9 witness: the amended theorem at the zero vector a = [0] against
b = [3]. -/
theorem cosineSim_zero_norm_witness :
    sqZero 0 = 0 ∧ [F.fin 0].length ≤ [F.fin 3].length ∧
      ((∀ x ∈ [F.fin 0], x = F.fin 0) ∨ (∀ x ∈ [F.fin 3], x = F.fin 0)) ∧
      ∃ r, cosineSim sqZero [F.fin 0] [F.fin 3] = some r ∧ finiteF r = false :=
  ⟨rfl, by decide, Or.inl (by decide),
    cosineSim_zero_norm sqZero [F.fin 0] [F.fin 3] rfl (by decide)
      (Or.inl (by decide))⟩

/-- C10: cosineSim is commutative on vectors of equal length, for
every square root function: the dot product terms commute and the two
norm accumulators swap roles symmetrically. -/
theorem cosineSim_comm (sq : Rat → Rat) (a b : List F)
    (h : a.length = b.length) : cosineSim sq a b = cosineSim sq b a := by
  rw [cosineSim, cosineSim, simLoop_swap a b (F.fin 0) (F.fin 0) (F.fin 0) h]
  cases simLoop a b (F.fin 0, F.fin 0, F.fin 0) with
  | none => rfl
  | some r =>
    simp only [Option.map_some']
    exact congrArg some (congrArg (divF r.1) (mulF_comm _ _))

/-- C10 witness: commutativity at the concrete equal-length pair
[1, 2] and [3, 4]. -/
theorem cosineSim_comm_witness :
    [F.fin 1, F.fin 2].length = [F.fin 3, F.fin 4].length ∧
      cosineSim sqZero [F.fin 1, F.fin 2] [F.fin 3, F.fin 4] =
        cosineSim sqZero [F.fin 3, F.fin 4] [F.fin 1, F.fin 2] :=
  ⟨rfl, cosineSim_comm sqZero [F.fin 1, F.fin 2] [F.fin 3, F.fin 4] rfl⟩

end Rag
